import Mathlib

/-!
Verification development for the aakbar peptide-term pipeline
(src/aakbar/core.py): term extraction, sort-based deduplication with
count/mean-score aggregation, multi-set intersection bookkeeping, the
score-cutoff filter, and the histogram reporters.

Sequences are modelled as `String`, per-position simplicity scores as an
integer-valued array `ℕ → ℤ` (the source stores scores in an `np.int16`
array, core.py line 246, so the scores entering aggregation are integers),
and tables as lists of records.  Floating-point arithmetic on scores is
modelled exactly over `ℚ`.
-/

namespace Aakbar

/-- `AMBIGUOUS_RESIDUES = ['X', '.']` (core.py line 30). -/
def AMBIGUOUS_RESIDUES : List Char := ['X', '.']

/-- Python `seq.upper()` (core.py line 224): uppercase every character. -/
def upstr (s : String) : String := ⟨s.data.map Char.toUpper⟩

/-- Python `char in seq` for a single character: membership of `c` among the
characters of `s`. -/
def str_has (s : String) (c : Char) : Bool := s.data.contains c

/-- `is_unambiguous` (core.py lines 37-47): true when no character of
`AMBIGUOUS_RESIDUES` occurs in `seq`. -/
def is_unambiguous (seq : String) : Bool :=
  ! AMBIGUOUS_RESIDUES.any (fun c => str_has seq c)

/-- Python slice `seq[i:i+k]`. -/
def window (s : String) (i k : ℕ) : String := ⟨(s.data.drop i).take k⟩

/-- The term-extraction comprehension of `calculate_peptide_terms`
(core.py lines 227-229 and 238-240): the sequence is uppercased first
(line 224), then for each `i` in `range(len(seq)-k)` the window
`seq[i:i+k]` is emitted, paired with the per-position score `s_scores[i]`,
when the window is unambiguous. -/
def extract_terms (k : ℕ) (seq : String) (s_scores : ℕ → ℤ) : List (String × ℤ) :=
  (List.range ((upstr seq).length - k)).filterMap fun i =>
    if is_unambiguous (window (upstr seq) i k) then
      some (window (upstr seq) i k, s_scores i)
    else none

/-- Reference definition of the extractor, following the specification's
words: for each start position `i` in the half-open range `[0, L-k)`,
extract the uppercase window of length `k` starting at `i`; include it,
paired with the score at its start position, only if no character of the
window is ambiguous. -/
def extract_terms_spec (k : ℕ) (seq : String) (s_scores : ℕ → ℤ) : List (String × ℤ) :=
  ((List.range (seq.length - k)).filter fun i =>
      is_unambiguous (window (upstr seq) i k)).map
    fun i => (window (upstr seq) i k, s_scores i)

/-- One row of a per-set unique-term table (`calculate_peptide_terms`
output): term, occurrence count, mean score. -/
structure TermRecord where
  term : String
  count : ℕ
  score : ℚ
deriving DecidableEq, Repr

/-- One row of the merged table built by `intersect_peptide_terms`:
term, number of intersecting sets, total count, maximum single-set
count, and score (a running weighted sum while merging, a weighted
mean once finalized). -/
structure MergedRecord where
  term : String
  intersections : ℕ
  count : ℕ
  max_count : ℕ
  score : ℚ
deriving DecidableEq, Repr

/-- Number of occurrences of term `t` in the occurrence list: the counts
returned by `np.unique(term_arr, return_counts=True)` (core.py line 263). -/
def term_count (occs : List (String × ℤ)) (t : String) : ℕ :=
  occs.countP (fun o => o.1 == t)

/-- Sum of the scores of the occurrences of term `t`: with
`np.argsort(term_arr)` grouping equal terms into runs, the run belonging to
`t` holds exactly the scores of `t`'s occurrences (core.py lines 260-267). -/
def term_score_sum (occs : List (String × ℤ)) (t : String) : ℤ :=
  ((occs.filter (fun o => o.1 == t)).map Prod.snd).sum

/-- Lexicographic comparison of character lists by code point, the order in
which `np.unique` sorts the byte-string term array (terms are stored with
dtype `S<k>`, core.py line 244). -/
def bytesLe : List Char → List Char → Bool
  | [], _ => true
  | _ :: _, [] => false
  | a :: as, b :: bs => a.toNat < b.toNat || (a == b && bytesLe as bs)

/-- Lexicographic order on terms, as a relation for sorting. -/
def strLe (a b : String) : Prop := bytesLe a.data b.data = true

instance : DecidableRel strLe := fun a b => by unfold strLe; infer_instance

/-- The distinct terms in ascending lexicographic order: the sorted unique
values returned by `np.unique` on the term array sorted by `np.argsort`
(core.py lines 260-265). -/
def unique_term_keys (occs : List (String × ℤ)) : List String :=
  List.insertionSort strLe (occs.map Prod.fst).dedup

/-- The unique-term table of `calculate_peptide_terms` (core.py lines
260-268): one row per distinct term, holding its occurrence count and the
mean of its occurrence scores (`score_arr[run].mean()`). -/
def unique_term_records (occs : List (String × ℤ)) : List TermRecord :=
  (unique_term_keys occs).map fun t =>
    ⟨t, term_count occs t, (term_score_sum occs t : ℚ) / (term_count occs t : ℚ)⟩

/-- The unique-term computation with its failure mode: with zero
occurrences, `max_freq = max(freqs)` (core.py line 266) raises `ValueError`
on the empty array (and line 272 would divide by `n_terms = 0`). -/
def unique_terms_table (occs : List (String × ℤ)) : Except String (List TermRecord) :=
  if occs.isEmpty then
    .error "ValueError: max() arg is an empty sequence"
  else
    .ok (unique_term_records occs)

/-- The per-set table as persisted by `calculate_peptide_terms` (core.py
lines 281-287): before writing, the rows are re-sorted by
`np.argsort(freqs)`, ascending occurrence count. -/
def written_terms_table (occs : List (String × ℤ)) : Except String (List TermRecord) :=
  (unique_terms_table occs).map
    (List.insertionSort (fun a b : TermRecord => a.count ≤ b.count))

/-- The first frame read by `intersect_peptide_terms` (core.py lines
400-407): every term enters with `intersections = 1`,
`count = max_count = count`, and `score = score * count`. -/
def initMerge (t : List TermRecord) : List MergedRecord :=
  t.map fun r => ⟨r.term, 1, r.count, r.count, r.score * (r.count : ℚ)⟩

/-- The effect of one merge pass on one row of the running merged frame
(core.py lines 408-420).  `merged_frame.join(working_frame)` is a pandas
left join on the index: a merged row finds its term's row in the working
set, or gets `NaN` which `fillna(0)` turns into zero contributions; rows
of the working set absent from the merged frame are discarded.  With a
match: `count += working_count`, `max_count = max(max_count,
working_count)`, `score += working_score * working_count`, and
`intersections += (working_count > 0)`. -/
def joinRow (working : List TermRecord) (m : MergedRecord) : MergedRecord :=
  match working.find? (fun r => r.term == m.term) with
  | some r =>
      ⟨m.term, m.intersections + (if 0 < r.count then 1 else 0),
        m.count + r.count, max m.max_count r.count,
        m.score + r.score * (r.count : ℚ)⟩
  | none => m

/-- One iteration of the merge loop: the left join keeps exactly the rows
of the running merged frame, each updated by `joinRow`. -/
def mergeStep (merged : List MergedRecord) (working : List TermRecord) : List MergedRecord :=
  merged.map (joinRow working)

/-- The whole merge loop of `intersect_peptide_terms` (core.py lines
387-420): initialize from the first set, then fold the remaining sets. -/
def mergeAll : List (List TermRecord) → List MergedRecord
  | [] => []
  | t :: ts => ts.foldl mergeStep (initMerge t)

/-- The drop step (core.py lines 438-439): remove every row with
`intersections == 1`. -/
def dropSingletons (l : List MergedRecord) : List MergedRecord :=
  l.filter (fun r => r.intersections ≠ 1)

/-- Score normalization after the merge (core.py line 449):
`score = score / count`. -/
def finalizeScores (l : List MergedRecord) : List MergedRecord :=
  l.map fun r => { r with score := r.score / (r.count : ℚ) }

/-- The merged-table content computed by `intersect_peptide_terms`
(core.py lines 387-449): merge, drop singletons, normalize scores. -/
def intersect_merged (ts : List (List TermRecord)) : List MergedRecord :=
  finalizeScores (dropSingletons (mergeAll ts))

/-- The sort key used when writing merged tables:
`sort_values(by=['max_count', 'intersections'])` (core.py lines 344
and 460), ascending lexicographic on the pair. -/
def mciLe (a b : MergedRecord) : Prop :=
  a.max_count < b.max_count ∨ (a.max_count = b.max_count ∧ a.intersections ≤ b.intersections)

instance : DecidableRel mciLe := fun a b => by unfold mciLe; infer_instance

/-- The merged table as written by `intersect_peptide_terms` (core.py
lines 438-464): content of `intersect_merged`, sorted by
`(max_count, intersections)`. -/
def intersect_peptide_terms (ts : List (List TermRecord)) : List MergedRecord :=
  List.insertionSort mciLe (intersect_merged ts)

/-- A term table read back from disk by `filter_peptide_terms`: either a raw
per-set table written by `calculate_peptide_terms` (columns `count`,
`score`) or a merged table written by `intersect_peptide_terms` (columns
`intersections`, `count`, `max_count`, `score`). -/
inductive TermTable
  | perSet (rows : List TermRecord)
  | merged (rows : List MergedRecord)
deriving Repr

/-- The cutoff test of `filter_peptide_terms` (core.py lines 325-326): a row
is kept when its score does not exceed the cutoff.  Cutoffs live in
`WithTop ℚ` so that the floating cutoff `+inf` is representable as `⊤`. -/
def keep (cutoff : WithTop ℚ) (s : ℚ) : Bool := ! decide (cutoff < (s : WithTop ℚ))

/-- `filter_peptide_terms` (core.py lines 299-354) as a fallible function of
the table it reads.  Failure modes, in the order the source hits them: on an
empty table, `len(term_frame.index[0])` (line 319) raises `IndexError`; when
every row is dropped by the cutoff, `frequency_and_score_histograms`
(line 337) raises `ValueError` at `max()` of an empty sequence; on a per-set
table, `sort_values(by=['max_count', 'intersections'])` (line 344) raises
`KeyError` because those columns do not exist — there is no fallback sort by
term.  Only on a nonempty merged table with a surviving row does it write
the surviving rows, sorted by `(max_count, intersections)`. -/
def filter_peptide_terms (cutoff : WithTop ℚ) : TermTable → Except String TermTable
  | .perSet rows =>
      if rows.isEmpty then .error "IndexError: index 0 is out of bounds"
      else if (rows.filter fun r => keep cutoff r.score).isEmpty then
        .error "ValueError: max() arg is an empty sequence"
      else .error "KeyError: columns max_count and intersections do not exist"
  | .merged rows =>
      if rows.isEmpty then .error "IndexError: index 0 is out of bounds"
      else if (rows.filter fun r => keep cutoff r.score).isEmpty then
        .error "ValueError: max() arg is an empty sequence"
      else .ok (.merged (List.insertionSort mciLe
        (rows.filter fun r => keep cutoff r.score)))

/-- Ascending order on naturals, as a sort relation. -/
def natLe (a b : ℕ) : Prop := a ≤ b

instance : DecidableRel natLe := fun a b => by unfold natLe; infer_instance

/-- `np.unique(v, return_counts=True)`: the distinct values in ascending
order, each with its number of occurrences. -/
def uniqueCounts (l : List ℕ) : List (ℕ × ℕ) :=
  (List.insertionSort natLe l.dedup).map fun v => (v, l.count v)

/-- The two summary tables built by `frequency_and_score_histograms`. -/
structure HistData where
  freq_rows : List (ℕ × ℕ × ℕ × ℚ)
  score_rows : List (ℚ × ℚ)
deriving Repr

/-- The fixed score-histogram bin edges (core.py lines 97-101). -/
def score_bin_edges : List ℚ :=
  [0, 1/100, 3/100, 1/10, 3/10, 1, 13/10, 2, 3, 4, 5, 100]

/-- One bin of `np.histogram`: values in `[lo, hi)`, except that the last
bin also includes its right edge. -/
def binCount (scores : List ℚ) (lo hi : ℚ) (closed : Bool) : ℕ :=
  scores.countP fun s =>
    decide (lo ≤ s) && (decide (s < hi) || (closed && decide (s = hi)))

/-- The score histogram (core.py lines 96-102): per-bin counts scaled to
percentages of the number of scores. -/
def score_hist (scores : List ℚ) : List (ℚ × ℚ) :=
  let pairs := score_bin_edges.zip score_bin_edges.tail
  pairs.enum.map fun p =>
    (p.2.1, (binCount scores p.2.1 p.2.2 (p.1 == pairs.length - 1) * 100 : ℚ) / scores.length)

/-- `frequency_and_score_histograms` (core.py lines 66-106).  With an empty
frequency vector, `np.unique` returns an empty array and `max(binvals)`
(line 76) raises `ValueError`; there is no guard for empty input. -/
def frequency_and_score_histograms (freqs : List ℕ) (scores : List ℚ) :
    Except String HistData :=
  let u := uniqueCounts freqs
  if u.isEmpty then .error "ValueError: max() arg is an empty sequence"
  else
    .ok ⟨(u.foldl
        (fun acc p =>
          (acc.1 + p.2, acc.2 ++ [(p.1, p.2, acc.1 + p.2, ((acc.1 + p.2 : ℕ) : ℚ) / (freqs.length : ℚ))]))
        ((0 : ℕ), ([] : List (ℕ × ℕ × ℕ × ℚ)))).2,
      score_hist scores⟩

/-- `max(frame['max_count'])` over a merged table (core.py line 124); zero
on an empty frame (where the source would raise instead — the histogram is
only ever called on frames that already survived earlier steps). -/
def maxMaxCount (frame : List MergedRecord) : ℕ :=
  frame.foldr (fun r m => max r.max_count m) 0

/-- The `(lastbin, nextbin)` pairs generated by the loop of
`intersection_histogram` (core.py lines 118-131): starting from
`lastbin = 0, nextbin = 1`, while `nextbin < max_freq` emit the pair and
then `lastbin = nextbin, nextbin *= 2`.  The fuel argument bounds the
iteration count; `maxFreq` iterations always suffice since `nextbin`
doubles from 1. -/
def binPairsAux : ℕ → ℕ → ℕ → ℕ → List (ℕ × ℕ)
  | 0, _, _, _ => []
  | fuel + 1, lastbin, nextbin, maxFreq =>
      if nextbin < maxFreq then
        (lastbin, nextbin) :: binPairsAux fuel nextbin (2 * nextbin) maxFreq
      else []

/-- The bin-boundary pairs of `intersection_histogram` for a given maximum
observed `max_count`. -/
def binPairs (maxFreq : ℕ) : List (ℕ × ℕ) := binPairsAux maxFreq 0 1 maxFreq

/-- The row selection of one histogram bin (core.py line 126):
`frame[frame['max_count'].isin([lastbin, nextbin])]` keeps exactly the rows
whose `max_count` is equal to `lastbin` or to `nextbin`. -/
def inrange (frame : List MergedRecord) (lb nb : ℕ) : List MergedRecord :=
  frame.filter fun r => r.max_count == lb || r.max_count == nb

/-- `intersection_histogram` (core.py lines 109-133): for each bin pair,
the written table row is keyed by `nextbin` and holds the `np.unique`
counts of the `intersections` values of the selected rows — raw counts,
not percentages (the percentage scaling happens only in the plot,
line 156). -/
def intersection_histogram (frame : List MergedRecord) : List (ℕ × List (ℕ × ℕ)) :=
  (binPairs (maxMaxCount frame)).map fun p =>
    (p.2, uniqueCounts ((inrange frame p.1 p.2).map (·.intersections)))

/-! ### Helper lemmas -/

theorem data_upstr (s : String) : (upstr s).data = s.data.map Char.toUpper := rfl

theorem length_upstr (s : String) : (upstr s).length = s.length := by
  show (upstr s).data.length = s.data.length
  rw [data_upstr, List.length_map]

theorem filterMap_ite {α β : Type} (p : α → Bool) (f : α → β) (l : List α) :
    (l.filterMap fun i => if p i then some (f i) else none) = (l.filter p).map f := by
  induction l with
  | nil => rfl
  | cons a l ih =>
      by_cases h : p a = true <;>
        simp [List.filterMap_cons, List.filter_cons, h, ih]

theorem is_unambiguous_window (s : String) (i k : ℕ)
    (h : is_unambiguous s = true) : is_unambiguous (window s i k) = true := by
  simp only [is_unambiguous, Bool.not_eq_true', List.any_eq_false] at h ⊢
  intro c hc
  have hs : ¬ s.data.contains c = true := h c hc
  show ¬ ((s.data.drop i).take k).contains c = true
  intro hw
  exact hs (List.elem_iff.mpr
    (List.mem_of_mem_drop (List.mem_of_mem_take (List.elem_iff.mp hw))))

theorem term_count_eq_count (occs : List (String × ℤ)) (t : String) :
    term_count occs t = (occs.map Prod.fst).count t := by
  rw [term_count, List.count, List.countP_map]
  rfl

theorem mem_unique_term_keys (occs : List (String × ℤ)) (t : String) :
    t ∈ unique_term_keys occs ↔ t ∈ occs.map Prod.fst := by
  rw [unique_term_keys, List.mem_insertionSort, List.mem_dedup]

theorem nodup_unique_term_keys (occs : List (String × ℤ)) :
    (unique_term_keys occs).Nodup :=
  (List.perm_insertionSort _ _).nodup_iff.mpr (List.nodup_dedup _)

theorem sum_unique_term_counts (occs : List (String × ℤ)) :
    ((unique_term_keys occs).map (fun t => term_count occs t)).sum = occs.length := by
  have hperm : List.Perm (unique_term_keys occs) (occs.map Prod.fst).dedup :=
    List.perm_insertionSort _ _
  rw [(hperm.map (fun t => term_count occs t)).sum_eq]
  have hmap : ((occs.map Prod.fst).dedup.map fun t => term_count occs t)
      = ((occs.map Prod.fst).dedup.map fun t => (occs.map Prod.fst).count t) := by
    exact List.map_congr_left fun t _ => term_count_eq_count occs t
  rw [hmap, List.sum_map_count_dedup_eq_length, List.length_map]

/-! ### Claim theorems -/

/-- C8.  The extractor equals the reference definition from the
specification: for every start position `i` in the half-open range
`[0, L - k)` it emits the uppercase window of length `k` starting at `i`,
paired with the oracle score at position `i`, exactly when no character of
the window is ambiguous; each such window has length `k`; and a sequence
with no ambiguous residues and length `L ≥ k` yields exactly `L - k`
windows. -/
theorem extract_terms_correct (k : ℕ) (seq : String) (s_scores : ℕ → ℤ) :
    extract_terms k seq s_scores = extract_terms_spec k seq s_scores
    ∧ (∀ i, i + k ≤ seq.length → (window (upstr seq) i k).length = k)
    ∧ (is_unambiguous (upstr seq) = true → k ≤ seq.length →
        (extract_terms k seq s_scores).length = seq.length - k) := by
  refine ⟨?_, ?_, ?_⟩
  · unfold extract_terms extract_terms_spec
    rw [length_upstr]
    exact filterMap_ite _ _ _
  · intro i hik
    have hik2 : i + k ≤ seq.data.length := hik
    show (((upstr seq).data.drop i).take k).length = k
    have hl : (upstr seq).data.length = seq.data.length := by
      rw [data_upstr, List.length_map]
    rw [List.length_take, List.length_drop, hl]
    omega
  · intro hu hk
    unfold extract_terms
    rw [filterMap_ite]
    have hall : ∀ i ∈ List.range ((upstr seq).length - k),
        is_unambiguous (window (upstr seq) i k) = true :=
      fun i _ => is_unambiguous_window _ _ _ hu
    rw [List.length_map, List.filter_eq_self.mpr hall, List.length_range, length_upstr]

/-- C9.  Aggregating an occurrence multiset yields one row per distinct
term (keys are duplicate-free and cover exactly the terms occurring in the
input), the output counts sum to the size of the input multiset, and each
row's count and score are the occurrence count and the arithmetic mean of
the occurrence scores of its term. -/
theorem unique_terms_aggregate (occs : List (String × ℤ)) (rows : List TermRecord)
    (h : unique_terms_table occs = .ok rows) :
    (rows.map (·.term)).Nodup
    ∧ (∀ t, t ∈ rows.map (·.term) ↔ t ∈ occs.map Prod.fst)
    ∧ (rows.map (·.count)).sum = occs.length
    ∧ ∀ r ∈ rows,
        r.count = (occs.filter (fun o => o.1 == r.term)).length
        ∧ r.score = ((occs.filter (fun o => o.1 == r.term)).map (fun o => (o.2 : ℚ))).sum
            / ((occs.filter (fun o => o.1 == r.term)).length : ℚ) := by
  have hrows : rows = unique_term_records occs := by
    unfold unique_terms_table at h
    split at h
    · simp at h
    · exact (Except.ok.inj h).symm
  subst hrows
  have hterm : (unique_term_records occs).map (·.term) = unique_term_keys occs := by
    simp [unique_term_records, List.map_map, Function.comp_def]
  refine ⟨?_, ?_, ?_, ?_⟩
  · rw [hterm]; exact nodup_unique_term_keys occs
  · intro t; rw [hterm]; exact mem_unique_term_keys occs t
  · have hcnt : (unique_term_records occs).map (·.count)
        = (unique_term_keys occs).map (fun t => term_count occs t) := by
      simp [unique_term_records, List.map_map, Function.comp_def]
    rw [hcnt]; exact sum_unique_term_counts occs
  · intro r hr
    simp only [unique_term_records, List.mem_map] at hr
    obtain ⟨t, _, rfl⟩ := hr
    constructor
    · exact List.countP_eq_length_filter _ _
    · show (term_score_sum occs t : ℚ) / (term_count occs t : ℚ) = _
      rw [term_score_sum, Int.cast_list_sum, List.map_map, term_count,
        List.countP_eq_length_filter]
      rfl

/-- C3 counterexample.  For the occurrences `BB, AA, AA` (scores 0) the
persisted table of `calculate_peptide_terms` lists `BB` (count 1) before
`AA` (count 2), because the write step re-sorts the rows by
`np.argsort(freqs)` (core.py line 281); the term keys of consecutive rows
are therefore not non-decreasing. -/
theorem written_table_not_term_sorted :
    ((written_terms_table [("BB", 0), ("AA", 0), ("AA", 0)]).map
        fun rows => rows.map (·.term)) = .ok ["BB", "AA"]
    ∧ ¬ (["BB", "AA"] : List String).Pairwise (· ≤ ·) := by
  constructor
  · rfl
  · intro hp
    have hba : ("BB" : String) ≤ "AA" := by
      simp only [List.pairwise_cons] at hp
      exact hp.1 "AA" (by simp)
    have hlt : ("AA" : String) < "BB" := by
      rw [String.lt_iff_toList_lt]
      decide
    exact absurd hba (not_le.mpr hlt)

/-- C3 amended.  The deduplication pass itself produces term-sorted unique
keys, but the table actually persisted by `calculate_peptide_terms` is the
unique-term table re-sorted by ascending occurrence count (core.py lines
281-287): consecutive rows of the written table have non-decreasing counts,
and the written rows are a permutation of the unique-term records. -/
theorem written_table_sorted_by_count (occs : List (String × ℤ)) (rows : List TermRecord)
    (h : written_terms_table occs = .ok rows) :
    rows.Pairwise (fun a b => a.count ≤ b.count)
    ∧ List.Perm rows (unique_term_records occs) := by
  have hrows : rows = List.insertionSort (fun a b : TermRecord => a.count ≤ b.count)
      (unique_term_records occs) := by
    unfold written_terms_table unique_terms_table at h
    split at h
    · exact absurd h (by simp [Except.map])
    · simp only [Except.map] at h
      exact (Except.ok.inj h).symm
  subst hrows
  constructor
  · haveI : IsTotal TermRecord (fun a b => a.count ≤ b.count) :=
      ⟨fun a b => Nat.le_total a.count b.count⟩
    haveI : IsTrans TermRecord (fun a b => a.count ≤ b.count) :=
      ⟨fun _ _ _ hab hbc => Nat.le_trans hab hbc⟩
    exact List.sorted_insertionSort _ _
  · exact List.perm_insertionSort _ _

/-- Witness for the amended C3 at a concrete occurrence list. -/
theorem written_table_sorted_by_count_witness :
    written_terms_table [("AA", 0), ("BB", 0), ("BB", 0)]
        = .ok (List.insertionSort (fun a b : TermRecord => a.count ≤ b.count)
            (unique_term_records [("AA", 0), ("BB", 0), ("BB", 0)]))
    ∧ (List.insertionSort (fun a b : TermRecord => a.count ≤ b.count)
          (unique_term_records [("AA", 0), ("BB", 0), ("BB", 0)])).Pairwise
        (fun a b => a.count ≤ b.count)
    ∧ List.Perm
        (List.insertionSort (fun a b : TermRecord => a.count ≤ b.count)
          (unique_term_records [("AA", 0), ("BB", 0), ("BB", 0)]))
        (unique_term_records [("AA", 0), ("BB", 0), ("BB", 0)]) :=
  have h : written_terms_table [("AA", 0), ("BB", 0), ("BB", 0)]
      = .ok (List.insertionSort (fun a b : TermRecord => a.count ≤ b.count)
          (unique_term_records [("AA", 0), ("BB", 0), ("BB", 0)])) := rfl
  ⟨h, (written_table_sorted_by_count _ _ h).1, (written_table_sorted_by_count _ _ h).2⟩

/-! ### Characterization of the merge loop -/

/-- The count the join contributes to term `t` from one working set: the
count of the first row of `S` whose term is `t`, or zero when `t` is absent
(the `fillna(0)` path of core.py line 414). -/
def set_count (t : String) (S : List TermRecord) : ℕ :=
  match S.find? (fun r => r.term == t) with
  | some r => r.count
  | none => 0

/-- The weighted score the join contributes to term `t` from one working
set (`working_score * working_count`, core.py line 417). -/
def set_wscore (t : String) (S : List TermRecord) : ℚ :=
  match S.find? (fun r => r.term == t) with
  | some r => r.score * (r.count : ℚ)
  | none => 0

/-- The intersections increment contributed to term `t` by one working set
(`(working_count > 0).astype(int)`, core.py line 418). -/
def set_hit (t : String) (S : List TermRecord) : ℕ :=
  match S.find? (fun r => r.term == t) with
  | some r => if 0 < r.count then 1 else 0
  | none => 0

/-- Total count contributed to term `t` by the sets after the first. -/
def later_count (t : String) (rest : List (List TermRecord)) : ℕ :=
  (rest.map (set_count t)).sum

/-- Total weighted score contributed to term `t` by the sets after the
first. -/
def later_wsum (t : String) (rest : List (List TermRecord)) : ℚ :=
  (rest.map (set_wscore t)).sum

/-- Number of sets after the first in which term `t` appears with nonzero
count. -/
def later_hits (t : String) (rest : List (List TermRecord)) : ℕ :=
  (rest.map (set_hit t)).sum

theorem foldl_mergeStep (rest : List (List TermRecord)) (m : List MergedRecord) :
    rest.foldl mergeStep m = m.map fun r => rest.foldl (fun x S => joinRow S x) r := by
  induction rest generalizing m with
  | nil => simp
  | cons S rest ih =>
      rw [List.foldl_cons, ih]
      simp [mergeStep, List.map_map, Function.comp_def]

theorem joinRow_term (S : List TermRecord) (r : MergedRecord) :
    (joinRow S r).term = r.term := by
  unfold joinRow
  split <;> rfl

theorem accum_term (rest : List (List TermRecord)) (r : MergedRecord) :
    (rest.foldl (fun x S => joinRow S x) r).term = r.term := by
  induction rest generalizing r with
  | nil => rfl
  | cons S rest ih => rw [List.foldl_cons, ih, joinRow_term]

theorem accum_fields (rest : List (List TermRecord)) (r : MergedRecord) :
    (rest.foldl (fun x S => joinRow S x) r).count = r.count + later_count r.term rest
    ∧ (rest.foldl (fun x S => joinRow S x) r).score = r.score + later_wsum r.term rest
    ∧ (rest.foldl (fun x S => joinRow S x) r).intersections
        = r.intersections + later_hits r.term rest := by
  induction rest generalizing r with
  | nil => simp [later_count, later_wsum, later_hits]
  | cons S rest ih =>
      obtain ⟨h1, h2, h3⟩ := ih (joinRow S r)
      rw [List.foldl_cons]
      refine ⟨?_, ?_, ?_⟩
      · rw [h1, joinRow_term]
        unfold later_count joinRow set_count
        cases hf : S.find? (fun x => x.term == r.term) with
        | none => simp [hf, List.map_cons, List.sum_cons]
        | some r1 =>
            simp only [hf, List.map_cons, List.sum_cons]
            omega
      · rw [h2, joinRow_term]
        unfold later_wsum joinRow set_wscore
        cases hf : S.find? (fun x => x.term == r.term) with
        | none => simp [hf, List.map_cons, List.sum_cons]
        | some r1 =>
            simp only [hf, List.map_cons, List.sum_cons]
            ring
      · rw [h3, joinRow_term]
        unfold later_hits joinRow set_hit
        cases hf : S.find? (fun x => x.term == r.term) with
        | none => simp [hf, List.map_cons, List.sum_cons]
        | some r1 =>
            simp only [hf, List.map_cons, List.sum_cons]
            omega

theorem mergeAll_cons (t0 : List TermRecord) (rest : List (List TermRecord)) :
    mergeAll (t0 :: rest)
      = (initMerge t0).map fun r => rest.foldl (fun x S => joinRow S x) r := by
  show rest.foldl mergeStep (initMerge t0) = _
  exact foldl_mergeStep rest (initMerge t0)

theorem set_hit_ne_zero (t : String) (S : List TermRecord)
    (hS : ∀ r ∈ S, 0 < r.count) :
    set_hit t S ≠ 0 ↔ ∃ r ∈ S, r.term = t := by
  unfold set_hit
  cases hf : S.find? (fun r => r.term == t) with
  | none =>
      rw [List.find?_eq_none] at hf
      constructor
      · intro h
        exact absurd rfl h
      · rintro ⟨r, hr, hrt⟩
        exact absurd (by simp [hrt] : (r.term == t) = true) (hf r hr)
  | some r =>
      have hr := List.mem_of_find?_eq_some hf
      have hp := List.find?_some hf
      simp only [beq_iff_eq] at hp
      have hc : 0 < r.count := hS r hr
      simp only [hc, if_pos]
      constructor
      · intro _
        exact ⟨r, hr, hp⟩
      · intro _
        exact one_ne_zero

theorem later_hits_ne_zero (t : String) (rest : List (List TermRecord))
    (hpos : ∀ S ∈ rest, ∀ r ∈ S, 0 < r.count) :
    later_hits t rest ≠ 0 ↔ ∃ S ∈ rest, ∃ r ∈ S, r.term = t := by
  unfold later_hits
  rw [Ne, List.sum_eq_zero_iff]
  push_neg
  constructor
  · rintro ⟨x, hx, hxne⟩
    rw [List.mem_map] at hx
    obtain ⟨S, hS, rfl⟩ := hx
    exact ⟨S, hS, (set_hit_ne_zero t S (hpos S hS)).mp hxne⟩
  · rintro ⟨S, hS, hr⟩
    exact ⟨set_hit t S, List.mem_map.mpr ⟨S, hS, rfl⟩,
      (set_hit_ne_zero t S (hpos S hS)).mpr hr⟩

/-- C1 counterexample.  Term `BB` occurs with nonzero count in the second
and third of three input sets, yet the final merged output is empty: the
pandas left join of `intersect_peptide_terms` (core.py line 412) silently
drops every term of a later set that is absent from the running merged
frame, so `BB` is never inserted, and `AA` (present only in the first set)
is removed by the `intersections == 1` drop. -/
theorem absent_term_never_inserted :
    intersect_peptide_terms [[⟨"AA", 1, 0⟩], [⟨"BB", 2, 0⟩], [⟨"BB", 3, 0⟩]] = [] := by
  decide

/-- C1 amended.  For every subsequent set S, a term of S already present in
the running merge is updated (count, max_count, weighted score,
intersections when its count in S is nonzero), but a term of S absent from
the running merge is dropped by the left join, never inserted.
Consequently a term appears in the final merged output exactly when it
belongs to the first input set and occurs in at least one later set
(assuming, as for genuine per-set tables, that all stored counts are
nonzero). -/
theorem merged_term_membership (t0 : List TermRecord) (rest : List (List TermRecord))
    (t : String) (hpos : ∀ S ∈ rest, ∀ r ∈ S, 0 < r.count) :
    (∃ row ∈ intersect_peptide_terms (t0 :: rest), row.term = t)
      ↔ (∃ a ∈ t0, a.term = t) ∧ (∃ S ∈ rest, ∃ r ∈ S, r.term = t) := by
  constructor
  · rintro ⟨row, hrow, hrowt⟩
    rw [intersect_peptide_terms, List.mem_insertionSort] at hrow
    unfold intersect_merged finalizeScores at hrow
    rw [List.mem_map] at hrow
    obtain ⟨r1, hr1, hfin⟩ := hrow
    unfold dropSingletons at hr1
    rw [List.mem_filter] at hr1
    obtain ⟨hr1m, hr1p⟩ := hr1
    rw [mergeAll_cons, List.mem_map] at hr1m
    obtain ⟨r0, hr0, hfold⟩ := hr1m
    unfold initMerge at hr0
    rw [List.mem_map] at hr0
    obtain ⟨a, ha, hinit⟩ := hr0
    have ht1 : r1.term = t := by
      rw [← hrowt, ← hfin]
    have hta : r1.term = a.term := by
      rw [← hfold, ← hinit]
      exact accum_term rest _
    have hat : a.term = t := by rw [← hta, ht1]
    have hint : r1.intersections = 1 + later_hits a.term rest := by
      rw [← hfold, ← hinit]
      exact (accum_fields rest _).2.2
    rw [decide_eq_true_eq, hint] at hr1p
    have hne : later_hits a.term rest ≠ 0 := by omega
    refine ⟨⟨a, ha, hat⟩, ?_⟩
    obtain ⟨S, hS, r, hr, hrt⟩ := (later_hits_ne_zero a.term rest hpos).mp hne
    exact ⟨S, hS, r, hr, by rw [hrt, hat]⟩
  · rintro ⟨⟨a, ha, hat⟩, hlater⟩
    subst hat
    have hne : later_hits a.term rest ≠ 0 :=
      (later_hits_ne_zero a.term rest hpos).mpr hlater
    have hmem0 : (⟨a.term, 1, a.count, a.count, a.score * (a.count : ℚ)⟩ : MergedRecord)
        ∈ initMerge t0 := by
      unfold initMerge
      exact List.mem_map.mpr ⟨a, ha, rfl⟩
    have hmem1 : rest.foldl (fun x S => joinRow S x)
        (⟨a.term, 1, a.count, a.count, a.score * (a.count : ℚ)⟩ : MergedRecord)
        ∈ mergeAll (t0 :: rest) := by
      rw [mergeAll_cons]
      exact List.mem_map.mpr ⟨_, hmem0, rfl⟩
    have hmem2 : rest.foldl (fun x S => joinRow S x)
        (⟨a.term, 1, a.count, a.count, a.score * (a.count : ℚ)⟩ : MergedRecord)
        ∈ dropSingletons (mergeAll (t0 :: rest)) := by
      unfold dropSingletons
      rw [List.mem_filter]
      refine ⟨hmem1, ?_⟩
      rw [decide_eq_true_eq, (accum_fields rest _).2.2]
      show 1 + later_hits a.term rest ≠ 1
      omega
    refine ⟨{ rest.foldl (fun x S => joinRow S x)
          (⟨a.term, 1, a.count, a.count, a.score * (a.count : ℚ)⟩ : MergedRecord) with
        score := (rest.foldl (fun x S => joinRow S x)
            (⟨a.term, 1, a.count, a.count, a.score * (a.count : ℚ)⟩ : MergedRecord)).score
          / ((rest.foldl (fun x S => joinRow S x)
            (⟨a.term, 1, a.count, a.count, a.score * (a.count : ℚ)⟩ : MergedRecord)).count : ℚ) },
      ?_, ?_⟩
    · rw [intersect_peptide_terms, List.mem_insertionSort]
      unfold intersect_merged finalizeScores
      exact List.mem_map.mpr ⟨_, hmem2, rfl⟩
    · show (rest.foldl (fun x S => joinRow S x)
          (⟨a.term, 1, a.count, a.count, a.score * (a.count : ℚ)⟩ : MergedRecord)).term = a.term
      exact accum_term rest _

/-- Witness for the amended C1 at concrete two-set input. -/
theorem merged_term_membership_witness :
    (∀ S ∈ [[(⟨"AA", 2, 0⟩ : TermRecord)]], ∀ r ∈ S, 0 < r.count)
    ∧ ((∃ row ∈ intersect_peptide_terms
          [[(⟨"AA", 1, 0⟩ : TermRecord)], [⟨"AA", 2, 0⟩]], row.term = "AA")
        ↔ (∃ a ∈ [(⟨"AA", 1, 0⟩ : TermRecord)], a.term = "AA")
          ∧ (∃ S ∈ [[(⟨"AA", 2, 0⟩ : TermRecord)]], ∃ r ∈ S, r.term = "AA")) :=
  ⟨by decide, merged_term_membership [⟨"AA", 1, 0⟩] [[⟨"AA", 2, 0⟩]] "AA" (by decide)⟩

/-- C4.  The two-set end-to-end scenario: Set1 holds `AAAAAAAAAA`
(count 5, score 0.1) and `BBBBBBBBBB` (count 2, score 0.2), Set2 holds
`AAAAAAAAAA` (count 3, score 0.3); the merged output is the single row
`AAAAAAAAAA` with count 8, max_count 5, score 7/40 = 0.175,
intersections 2, while `BBBBBBBBBB` is dropped with intersections 1.
In general, every row of the final merged output derives from a row `a` of
the first set, and its finalized score is the count-weighted mean of the
per-set scores of its contributing sets. -/
theorem intersect_scenario_and_weighted_mean :
    intersect_peptide_terms
        [[⟨"AAAAAAAAAA", 5, 1/10⟩, ⟨"BBBBBBBBBB", 2, 1/5⟩], [⟨"AAAAAAAAAA", 3, 3/10⟩]]
      = [⟨"AAAAAAAAAA", 2, 8, 5, 7/40⟩]
    ∧ ∀ (t0 : List TermRecord) (rest : List (List TermRecord)) (row : MergedRecord),
        row ∈ intersect_peptide_terms (t0 :: rest) →
        ∃ a ∈ t0, row.term = a.term
          ∧ row.count = a.count + later_count a.term rest
          ∧ row.score = (a.score * (a.count : ℚ) + later_wsum a.term rest)
              / ((a.count + later_count a.term rest : ℕ) : ℚ) := by
  constructor
  · simp only [intersect_peptide_terms, intersect_merged, mergeAll, mergeStep, initMerge,
      joinRow, dropSingletons, finalizeScores, List.insertionSort, List.orderedInsert,
      List.foldl, List.map, List.filter, List.find?]
    norm_num
  · intro t0 rest row hrow
    rw [intersect_peptide_terms, List.mem_insertionSort] at hrow
    unfold intersect_merged finalizeScores at hrow
    rw [List.mem_map] at hrow
    obtain ⟨r1, hr1, rfl⟩ := hrow
    unfold dropSingletons at hr1
    rw [List.mem_filter] at hr1
    obtain ⟨hr1m, _⟩ := hr1
    rw [mergeAll_cons, List.mem_map] at hr1m
    obtain ⟨r0, hr0, rfl⟩ := hr1m
    unfold initMerge at hr0
    rw [List.mem_map] at hr0
    obtain ⟨a, ha, rfl⟩ := hr0
    have hterm := accum_term rest
      (⟨a.term, 1, a.count, a.count, a.score * (a.count : ℚ)⟩ : MergedRecord)
    have hfields := accum_fields rest
      (⟨a.term, 1, a.count, a.count, a.score * (a.count : ℚ)⟩ : MergedRecord)
    refine ⟨a, ha, ?_, ?_, ?_⟩
    · exact hterm
    · exact hfields.1
    · show (rest.foldl (fun x S => joinRow S x) _).score
        / ((rest.foldl (fun x S => joinRow S x) _).count : ℚ) = _
      rw [hfields.1, hfields.2.1]

theorem mergeAll_pair_cons (a : TermRecord) (A B : List TermRecord) :
    mergeAll ((a :: A) :: [B])
      = joinRow B ⟨a.term, 1, a.count, a.count, a.score * (a.count : ℚ)⟩
          :: mergeAll (A :: [B]) := by
  simp [mergeAll, mergeStep, initMerge]

/-- Per-term content of a two-set merge: a term of the final table must be
found in both input tables (the left join restricts to the first set's
terms; the `intersections == 1` drop then requires a hit in the second),
and its fields combine the two rows' counts and weighted scores. -/
theorem find?_intersect_pair (A B : List TermRecord) (t : String)
    (hB : ∀ r ∈ B, 0 < r.count) :
    (intersect_merged [A, B]).find? (fun r => r.term == t)
      = match A.find? (fun r => r.term == t), B.find? (fun r => r.term == t) with
        | some a, some b =>
            some ⟨a.term, 2, a.count + b.count, max a.count b.count,
              (a.score * (a.count : ℚ) + b.score * (b.count : ℚ))
                / ((a.count + b.count : ℕ) : ℚ)⟩
        | _, _ => none := by
  induction A with
  | nil => rfl
  | cons a A ih =>
      unfold intersect_merged at ih ⊢
      rw [mergeAll_pair_cons]
      cases hf : B.find? (fun r => r.term == a.term) with
      | some b =>
          have hb : 0 < b.count := hB b (List.mem_of_find?_eq_some hf)
          have hj : joinRow B ⟨a.term, 1, a.count, a.count, a.score * (a.count : ℚ)⟩
              = ⟨a.term, 2, a.count + b.count, max a.count b.count,
                  a.score * (a.count : ℚ) + b.score * (b.count : ℚ)⟩ := by
            simp [joinRow, hf, hb]
          rw [hj]
          rw [show dropSingletons ((⟨a.term, 2, a.count + b.count, max a.count b.count,
                a.score * (a.count : ℚ) + b.score * (b.count : ℚ)⟩ : MergedRecord)
                  :: mergeAll (A :: [B]))
              = (⟨a.term, 2, a.count + b.count, max a.count b.count,
                  a.score * (a.count : ℚ) + b.score * (b.count : ℚ)⟩ : MergedRecord)
                  :: dropSingletons (mergeAll (A :: [B])) from by
            simp [dropSingletons, List.filter_cons]]
          rw [show finalizeScores ((⟨a.term, 2, a.count + b.count, max a.count b.count,
                a.score * (a.count : ℚ) + b.score * (b.count : ℚ)⟩ : MergedRecord)
                  :: dropSingletons (mergeAll (A :: [B])))
              = (⟨a.term, 2, a.count + b.count, max a.count b.count,
                  (a.score * (a.count : ℚ) + b.score * (b.count : ℚ))
                    / ((a.count + b.count : ℕ) : ℚ)⟩ : MergedRecord)
                  :: finalizeScores (dropSingletons (mergeAll (A :: [B]))) from by
            simp [finalizeScores]]
          cases hat : (a.term == t) with
          | true =>
              have hteq : a.term = t := by simpa using hat
              subst hteq
              rw [List.find?_cons_of_pos _ (by simp),
                List.find?_cons_of_pos _ (by simp), hf]
          | false =>
              rw [List.find?_cons_of_neg _ (by simpa using hat),
                List.find?_cons_of_neg _ (by simpa using hat), ih]
      | none =>
          have hj : joinRow B ⟨a.term, 1, a.count, a.count, a.score * (a.count : ℚ)⟩
              = ⟨a.term, 1, a.count, a.count, a.score * (a.count : ℚ)⟩ := by
            simp [joinRow, hf]
          rw [hj]
          rw [show dropSingletons ((⟨a.term, 1, a.count, a.count,
                a.score * (a.count : ℚ)⟩ : MergedRecord) :: mergeAll (A :: [B]))
              = dropSingletons (mergeAll (A :: [B])) from by
            simp [dropSingletons, List.filter_cons]]
          cases hat : (a.term == t) with
          | true =>
              have hteq : a.term = t := by simpa using hat
              subst hteq
              rw [List.find?_cons_of_pos _ (by simp), ih]
              cases hfa : A.find? (fun r => r.term == a.term) <;> rw [hf]
          | false =>
              rw [List.find?_cons_of_neg _ (by simpa using hat), ih]

/-- C2.  Two-set order independence: for every pair of per-set tables with
positive counts, merging `[A, B]` and merging `[B, A]` give, per term,
identical `count`, `max_count`, and `intersections` in the final merged
content (the logged running percentages differ, but they are not part of
the table). -/
theorem intersect_pair_comm (A B : List TermRecord)
    (hA : ∀ r ∈ A, 0 < r.count) (hB : ∀ r ∈ B, 0 < r.count) (t : String) :
    ((intersect_merged [A, B]).find? (fun r => r.term == t)).map
        (fun r => (r.count, r.max_count, r.intersections))
      = ((intersect_merged [B, A]).find? (fun r => r.term == t)).map
        (fun r => (r.count, r.max_count, r.intersections)) := by
  rw [find?_intersect_pair A B t hB, find?_intersect_pair B A t hA]
  cases A.find? (fun r => r.term == t) with
  | none => cases B.find? (fun r => r.term == t) <;> rfl
  | some a =>
      cases B.find? (fun r => r.term == t) with
      | none => rfl
      | some b => simp [Nat.add_comm, Nat.max_comm]

/-- Witness for C2 at concrete one-row tables. -/
theorem intersect_pair_comm_witness :
    (∀ r ∈ [(⟨"AA", 1, 0⟩ : TermRecord)], 0 < r.count)
    ∧ (∀ r ∈ [(⟨"AA", 2, 0⟩ : TermRecord)], 0 < r.count)
    ∧ ((intersect_merged [[(⟨"AA", 1, 0⟩ : TermRecord)], [⟨"AA", 2, 0⟩]]).find?
          (fun r => r.term == "AA")).map
        (fun r => (r.count, r.max_count, r.intersections))
      = ((intersect_merged [[(⟨"AA", 2, 0⟩ : TermRecord)], [⟨"AA", 1, 0⟩]]).find?
          (fun r => r.term == "AA")).map
        (fun r => (r.count, r.max_count, r.intersections)) :=
  ⟨by decide, by decide,
    intersect_pair_comm [⟨"AA", 1, 0⟩] [⟨"AA", 2, 0⟩] (by decide) (by decide) "AA"⟩

/-- C6 counterexample.  On a nonempty raw per-set table (columns `count`,
`score` only), `filter_peptide_terms` does not fall back to sorting by
term: `sort_values(by=['max_count', 'intersections'])` (core.py line 344)
raises `KeyError`, so the command produces no output at all. -/
theorem filter_per_set_fails :
    (filter_peptide_terms ((3/10 : ℚ) : WithTop ℚ)
        (.perSet [⟨"AA", 1, 0⟩])).isOk = false := by
  have hkeep : keep ((3/10 : ℚ) : WithTop ℚ) 0 = true := by
    simp [keep]
    norm_num
  simp [filter_peptide_terms, hkeep]
  rfl

/-- C6 amended.  `filter_peptide_terms` sorts unconditionally by
`(max_count, intersections)`: on a per-set table lacking those columns the
sort raises `KeyError` (after an `IndexError` on an empty table or a
`ValueError` when nothing survives the cutoff), so the filter only
succeeds on merged tables, where it writes the surviving rows sorted by
`(max_count, intersections)` — never by term. -/
theorem filter_requires_merged_columns (c : WithTop ℚ) (prows : List TermRecord)
    (mrows : List MergedRecord) :
    (filter_peptide_terms c (.perSet prows)).isOk = false
    ∧ (∀ out, filter_peptide_terms c (.merged mrows) = .ok out →
        out = .merged (List.insertionSort mciLe
          (mrows.filter fun r => keep c r.score))) := by
  constructor
  · simp only [filter_peptide_terms]
    split
    · rfl
    · split <;> rfl
  · intro out hout
    simp only [filter_peptide_terms] at hout
    split at hout
    · exact absurd hout (by simp)
    · split at hout
      · exact absurd hout (by simp)
      · exact (Except.ok.inj hout).symm

/-- C10 counterexample.  Running the filter with cutoff `+inf` on an empty
merged table does not return the original (empty) table: the command fails
at `k = len(term_frame.index[0])` (core.py line 319) with `IndexError`. -/
theorem filter_top_empty_errors :
    filter_peptide_terms ⊤ (.merged ([] : List MergedRecord))
      = .error "IndexError: index 0 is out of bounds" := rfl

theorem keep_iff (c : WithTop ℚ) (s : ℚ) :
    keep c s = true ↔ (s : WithTop ℚ) ≤ c := by
  simp [keep, not_lt]

/-- C10 amended.  On every nonempty merged table the filter keeps exactly
the rows with `score ≤ cutoff` (every surviving row satisfies the bound
and no row satisfying it is dropped), and with cutoff `+inf` and at least
one row the output is the original table contents up to row order; empty
tables (and per-set tables) instead make the command fail. -/
theorem filter_keeps_le_cutoff (rows : List MergedRecord) (c : WithTop ℚ) :
    (∀ out, filter_peptide_terms c (.merged rows) = .ok (.merged out) →
        List.Perm out (rows.filter fun r => keep c r.score)
        ∧ ∀ r, r ∈ out ↔ r ∈ rows ∧ (r.score : WithTop ℚ) ≤ c)
    ∧ (rows ≠ [] → ∃ out, filter_peptide_terms ⊤ (.merged rows) = .ok (.merged out)
        ∧ List.Perm out rows) := by
  constructor
  · intro out hout
    simp only [filter_peptide_terms] at hout
    split at hout
    · exact absurd hout (by simp)
    · split at hout
      · exact absurd hout (by simp)
      · have hsort : out = List.insertionSort mciLe
            (rows.filter fun r => keep c r.score) := by
          have h2 := Except.ok.inj hout
          exact (TermTable.merged.inj h2).symm
        subst hsort
        refine ⟨List.perm_insertionSort _ _, ?_⟩
        intro r
        rw [List.mem_insertionSort, List.mem_filter, keep_iff]
  · intro hne
    have hkeep : (rows.filter fun r => keep ⊤ r.score) = rows :=
      List.filter_eq_self.mpr fun r _ => (keep_iff ⊤ r.score).mpr le_top
    refine ⟨List.insertionSort mciLe rows, ?_, List.perm_insertionSort _ _⟩
    simp only [filter_peptide_terms, hkeep]
    rw [if_neg (by simpa [List.isEmpty_iff] using hne),
      if_neg (by simpa [List.isEmpty_iff] using hne)]

/-- C5 counterexample.  An empty frequency vector is not handled
gracefully: `frequency_and_score_histograms` hits `max(binvals)` on an
empty array (core.py line 76) and raises `ValueError` instead of
reporting and skipping. -/
theorem histograms_error_on_empty :
    frequency_and_score_histograms [] []
      = .error "ValueError: max() arg is an empty sequence" := rfl

/-- C5 amended.  Empty input is an error, not a gracefully skipped case:
the histogram stage raises `ValueError` at `max()` of an empty sequence
(core.py line 76), `calculate_peptide_terms` with zero occurrences raises
at `max(freqs)` (line 266), and `filter_peptide_terms` on an empty table
of either kind raises `IndexError` at `term_frame.index[0]` (line 319).
No stage guards against empty tables. -/
theorem empty_input_raises (c : WithTop ℚ) :
    (frequency_and_score_histograms [] []).isOk = false
    ∧ (unique_terms_table []).isOk = false
    ∧ (filter_peptide_terms c (.merged [])).isOk = false
    ∧ (filter_peptide_terms c (.perSet [])).isOk = false :=
  ⟨rfl, rfl, rfl, rfl⟩

theorem binPairsAux_pow (fuel : ℕ) :
    ∀ (lb nb M : ℕ), (lb = 0 ∨ ∃ i, lb = 2 ^ i) → (∃ i, nb = 2 ^ i) →
      ∀ p ∈ binPairsAux fuel lb nb M,
        (p.1 = 0 ∨ ∃ i, p.1 = 2 ^ i) ∧ ∃ i, p.2 = 2 ^ i := by
  induction fuel with
  | zero =>
      intro lb nb M _ _ p hp
      simp [binPairsAux] at hp
  | succ fuel ih =>
      intro lb nb M hlb hnb p hp
      rw [binPairsAux] at hp
      by_cases h : nb < M
      · rw [if_pos h] at hp
        rcases List.mem_cons.mp hp with hp | hp
        · subst hp
          exact ⟨hlb, hnb⟩
        · refine ih nb (2 * nb) M (Or.inr hnb) ?_ p hp
          obtain ⟨i, rfl⟩ := hnb
          exact ⟨i + 1, by ring⟩
      · rw [if_neg h] at hp
        simp at hp

theorem binPairs_pow (M : ℕ) :
    ∀ p ∈ binPairs M, (p.1 = 0 ∨ ∃ i, p.1 = 2 ^ i) ∧ ∃ i, p.2 = 2 ^ i :=
  binPairsAux_pow M 0 1 M (Or.inl rfl) ⟨0, rfl⟩

/-- C7 counterexample.  For the merged rows `AA` (max_count 3,
intersections 7), `CC` (max_count 1, intersections 2) and `BB`
(max_count 5), the maximum observed max_count is 5 and the generated bins
select rows with `max_count.isin([0,1])`, `isin([1,2])`, `isin([2,4])`:
`AA` (max_count 3, between 1 and the maximum) falls in no bin at all, the
max_count-1 row `CC` is counted in two bins, and the stored values are raw
counts (`CC` appears as count 1, not a percentage). -/
theorem intersection_histogram_skips_terms :
    intersection_histogram
        [⟨"AA", 7, 3, 3, 0⟩, ⟨"CC", 2, 1, 1, 0⟩, ⟨"BB", 2, 5, 5, 0⟩]
      = [(1, [(2, 1)]), (2, [(2, 1)]), (4, [])] := by
  decide

/-- C7 amended.  The histogram loop selects, for each boundary pair
`(lastbin, nextbin)` with `nextbin` doubling from 1 while
`nextbin < max(max_count)`, exactly the rows whose `max_count` *equals*
`lastbin` or `nextbin` — exact membership, not a covering range.  All
boundaries are 0 or powers of two, so a row whose `max_count` is neither
0 nor a power of two is selected by no bin (and per-bin tallies are raw
`np.unique` counts; percentage scaling exists only in the plot). -/
theorem intersection_histogram_bins (frame : List MergedRecord) (r : MergedRecord)
    (h0 : r.max_count ≠ 0) (hp : ∀ i, r.max_count ≠ 2 ^ i) :
    ∀ p ∈ binPairs (maxMaxCount frame), r ∉ inrange frame p.1 p.2 := by
  intro p hp2
  obtain ⟨h1, h2⟩ := binPairs_pow _ p hp2
  unfold inrange
  rw [List.mem_filter]
  rintro ⟨-, hcond⟩
  simp only [Bool.or_eq_true, beq_iff_eq] at hcond
  rcases hcond with hc | hc
  · rcases h1 with h1 | ⟨i, hi⟩
    · exact h0 (hc.trans h1)
    · exact hp i (hc.trans hi)
  · obtain ⟨i, hi⟩ := h2
    exact hp i (hc.trans hi)

/-- Witness for the amended C7: the max_count-3 row of the counterexample
frame is selected by none of the generated bins. -/
theorem intersection_histogram_bins_witness :
    ((⟨"AA", 7, 3, 3, 0⟩ : MergedRecord).max_count ≠ 0)
    ∧ (∀ i, (⟨"AA", 7, 3, 3, 0⟩ : MergedRecord).max_count ≠ 2 ^ i)
    ∧ ∀ p ∈ binPairs (maxMaxCount
          [⟨"AA", 7, 3, 3, 0⟩, ⟨"CC", 2, 1, 1, 0⟩, ⟨"BB", 2, 5, 5, 0⟩]),
        (⟨"AA", 7, 3, 3, 0⟩ : MergedRecord) ∉ inrange
          [⟨"AA", 7, 3, 3, 0⟩, ⟨"CC", 2, 1, 1, 0⟩, ⟨"BB", 2, 5, 5, 0⟩] p.1 p.2 :=
  have hp : ∀ i, (⟨"AA", 7, 3, 3, 0⟩ : MergedRecord).max_count ≠ 2 ^ i := by
    intro i h
    match i with
    | 0 => exact absurd h (by decide)
    | 1 => exact absurd h (by decide)
    | i + 2 =>
        have h4 : 2 ^ 2 ≤ 2 ^ (i + 2) := Nat.pow_le_pow_right (by omega) (by omega)
        have h3 : (⟨"AA", 7, 3, 3, 0⟩ : MergedRecord).max_count = 3 := rfl
        omega
  ⟨by decide, hp,
    intersection_histogram_bins
      [⟨"AA", 7, 3, 3, 0⟩, ⟨"CC", 2, 1, 1, 0⟩, ⟨"BB", 2, 5, 5, 0⟩]
      ⟨"AA", 7, 3, 3, 0⟩ (by decide) hp⟩

/-- Witness for C9 at a concrete occurrence list. -/
theorem unique_terms_aggregate_witness :
    unique_terms_table [("AA", 2), ("AA", 4)]
        = .ok (unique_term_records [("AA", 2), ("AA", 4)])
    ∧ ((unique_term_records [("AA", 2), ("AA", 4)]).map (·.term)).Nodup
    ∧ (∀ t, t ∈ (unique_term_records [("AA", 2), ("AA", 4)]).map (·.term)
        ↔ t ∈ ([("AA", 2), ("AA", 4)] : List (String × ℤ)).map Prod.fst)
    ∧ ((unique_term_records [("AA", 2), ("AA", 4)]).map (·.count)).sum
        = ([("AA", 2), ("AA", 4)] : List (String × ℤ)).length
    ∧ ∀ r ∈ unique_term_records [("AA", 2), ("AA", 4)],
        r.count = (([("AA", 2), ("AA", 4)] : List (String × ℤ)).filter
            (fun o => o.1 == r.term)).length
        ∧ r.score = ((([("AA", 2), ("AA", 4)] : List (String × ℤ)).filter
              (fun o => o.1 == r.term)).map (fun o => (o.2 : ℚ))).sum
            / ((([("AA", 2), ("AA", 4)] : List (String × ℤ)).filter
              (fun o => o.1 == r.term)).length : ℚ) :=
  ⟨rfl, unique_terms_aggregate [("AA", 2), ("AA", 4)] _ rfl⟩

end Aakbar
